import Mathlib

set_option maxRecDepth 10000

/-!
Verification development for the Unthinkable retrieval-augmented QA backend.

The definitions below are a shallow embedding of the Python sources:
  - `src/backend/api/ingest.py` (`_chunk_text`, `_store_in_db`, `ingest_upload`,
    `delete_document`),
  - `src/backend/database_memory.py` (`InMemoryDatabase.execute`,
    `InMemoryDatabase.fetch`, `InMemoryDatabase._cosine_distance`),
  - `src/backend/api/query.py` (`query_ask`),
  - `src/backend/api/text_documents.py` (`list_documents`),
  - `src/backend/database.py` (`get_db_connection`, `get_db_pool`, `init_database`).

Modelling conventions:
  - Python text is modelled as `List Char`; slices and `str.strip()` are defined
    below to match Python semantics on the non-negative index ranges that all
    stated theorems stay inside.
  - Python floats are idealised as exact numbers: vector components as `ℚ`,
    computed distances as `ℝ` (the square root forces `ℝ`).
  - Python dicts are insertion-ordered association lists; assignment to an
    existing key replaces the value in place, otherwise the pair is appended.
  - `uuid.uuid4()` chunk ids are modelled by a fresh-id counter on the store
    (`nextId`): uuid collisions are ignored, as the source implicitly does.
  - `datetime.now()` timestamps are omitted: no claim below depends on them.
  - The Python `while` loop of `_chunk_text` may diverge, so it is embedded
    with explicit fuel and returns `Option`; `none` means the fuel ran out.
-/

namespace Unthinkable

/-- Python `pat in s` substring test on strings. -/
def occursIn (pat s : String) : Prop := pat.data <:+: s.data

instance (pat s : String) : Decidable (occursIn pat s) :=
  List.decidableInfix pat.data s.data

/-- Python whitespace test for `str.strip()` (enough for ASCII text). -/
def pyWS (c : Char) : Bool := c.isWhitespace

/-- Python `s.strip()` on a list of characters. -/
def pyStrip (l : List Char) : List Char :=
  ((l.dropWhile pyWS).reverse.dropWhile pyWS).reverse

/-- Python `text[start:stop]` for `0 ≤ start ≤ stop` (the only uses below). -/
def pySlice (l : List Char) (start stop : ℕ) : List Char :=
  (l.take stop).drop start

/-- Insertion-ordered dict membership test (`k in d`). -/
def hasKey {β : Type} (l : List (ℕ × β)) (k : ℕ) : Bool := l.any (·.1 == k)

/-- Python dict assignment `d[k] = v`: replace in place, else append. -/
def dictSet {β : Type} (l : List (ℕ × β)) (k : ℕ) (v : β) : List (ℕ × β) :=
  if hasKey l k then l.map (fun p => if p.1 == k then (k, v) else p)
  else l ++ [(k, v)]

/-- String-keyed dict membership test. -/
def hasKeyS {β : Type} (l : List (String × β)) (k : String) : Bool := l.any (·.1 == k)

/-- String-keyed Python dict assignment. -/
def dictSetS {β : Type} (l : List (String × β)) (k : String) (v : β) : List (String × β) :=
  if hasKeyS l k then l.map (fun p => if p.1 == k then (k, v) else p)
  else l ++ [(k, v)]

/-! ## The chunker: `_chunk_text` from `src/backend/api/ingest.py` -/

/-- `c in '.!?'` — the sentence-terminator test of `_chunk_text`. -/
def isSentenceEnd (c : Char) : Bool := c == '.' || c == '!' || c == '?'

/-- Python `for i in range(hi, lo, -1): if p(text[i]): return i` — first index
`i` with `lo < i ≤ hi` (scanning downward) whose character satisfies `p`. -/
def scanBack (text : List Char) (p : Char → Bool) (lo : ℕ) : ℕ → Option ℕ
  | 0 => none
  | hi + 1 =>
    if hi + 1 ≤ lo then none
    else if p (text.getD (hi + 1) ' ') then some (hi + 1)
    else scanBack text p lo hi

/-- The cut position chosen by one iteration of the `_chunk_text` loop:
`end = start + chunk_size`, moved back to a sentence terminator within the last
100 characters of the window, else to a space within the last 50, else kept. -/
def chunkEnd (text : List Char) (chunkSize start : ℕ) : ℕ :=
  let e := start + chunkSize
  if e < text.length then
    match scanBack text isSentenceEnd (max (start + chunkSize - 100) start) e with
    | some i => i + 1
    | none =>
      match scanBack text (· == ' ') (max (start + chunkSize - 50) start) e with
      | some i => i
      | none => e
  else e

/-- The `while start < len(text)` loop of `_chunk_text`, with explicit fuel.
Each iteration appends `text[start:end].strip()` and sets `start = end - overlap`. -/
def chunkLoop (text : List Char) (chunkSize overlap : ℕ) :
    ℕ → ℕ → List (List Char) → Option (List (List Char))
  | 0, _, _ => none
  | fuel + 1, start, acc =>
    if start < text.length then
      let e := chunkEnd text chunkSize start
      chunkLoop text chunkSize overlap fuel (e - overlap) (acc ++ [pyStrip (pySlice text start e)])
    else some acc

/-- `_chunk_text(text, chunk_size, overlap)`: the short input is returned whole
(untrimmed); otherwise the loop runs and empty chunks are dropped at the end. -/
def chunk_text (fuel : ℕ) (text : List Char) (chunkSize overlap : ℕ) :
    Option (List (List Char)) :=
  if text.length ≤ chunkSize then some [text]
  else (chunkLoop text chunkSize overlap fuel 0 []).map (List.filter (· ≠ []))

/-! ## The in-memory store: `InMemoryDatabase` from `src/backend/database_memory.py` -/

/-- A row of `self.documents` (the `uploaded_at` timestamp is omitted). -/
structure DocRow where
  filename : String
  mime_type : Option String
  total_chunks : ℕ
deriving DecidableEq

/-- A row of `self.chunks` (the `created_at` timestamp is omitted). -/
structure ChunkRow where
  document_id : String
  chunk_index : ℕ
  content : List Char
deriving DecidableEq

/-- The `InMemoryDatabase` state: three insertion-ordered dicts, plus the
fresh-id counter `nextId` modelling the `uuid.uuid4()` chunk-id source. -/
structure MemDB where
  documents : List (String × DocRow)
  chunks : List (ℕ × ChunkRow)
  embeddings : List (ℕ × List ℚ)
  nextId : ℕ
deriving DecidableEq

/-- The freshly constructed store (`InMemoryDatabase.__init__`). -/
def MemDB.empty : MemDB := ⟨[], [], [], 0⟩

/-- One positional parameter of `execute`/`fetch` (Python `*params` is a
heterogeneous tuple). Chunk ids, Python `str(uuid.uuid4())` values, are
modelled as the naturals drawn from `MemDB.nextId`. -/
inductive PVal where
  | pstr (s : String)
  | poptStr (s : Option String)
  | pnat (n : ℕ)
  | pchars (cs : List Char)
  | pvec (v : List ℚ)
deriving DecidableEq

/-- Read a parameter as a string. The junk default is never reached from the
call sites modelled below, which pass well-typed parameters (as the Python
callers do — a mistyped parameter would crash the Python too). -/
def PVal.asStr : PVal → String
  | .pstr s => s
  | _ => ""

def PVal.asOptStr : PVal → Option String
  | .poptStr s => s
  | .pstr s => some s
  | _ => none

def PVal.asNat : PVal → ℕ
  | .pnat n => n
  | _ => 0

def PVal.asChars : PVal → List Char
  | .pchars cs => cs
  | _ => []

def PVal.asVec : PVal → List ℚ
  | .pvec v => v
  | _ => []

/-- SQL text sent by `_store_in_db` for the document row. -/
def insertDocSQL : String :=
  "INSERT INTO documents (id, filename, mime_type, total_chunks) VALUES ($1, $2, $3, $4) ON CONFLICT (id) DO NOTHING"

/-- SQL text sent by `_store_in_db` for each chunk row. -/
def insertChunkSQL : String :=
  "INSERT INTO document_chunks (id, document_id, chunk_index, content, embedding) VALUES ($1, $2, $3, $4, $5)"

/-- SQL text sent by the delete routes for the chunk rows. -/
def deleteChunksSQL : String := "DELETE FROM document_chunks WHERE document_id = $1"

/-- SQL text sent by the delete routes for the document row. -/
def deleteDocSQL : String := "DELETE FROM documents WHERE id = $1"

/-- SQL text sent by `query_ask` / `query_text_documents` for the search. -/
def searchSQL : String :=
  "SELECT dc.content, dc.chunk_index, dc.document_id, dc.embedding <-> $1 AS distance FROM document_chunks dc ORDER BY distance LIMIT $2"

/-- SQL text sent by `list_documents` in `text_documents.py`. -/
def listDocsSQL : String := "SELECT * FROM documents ORDER BY created_at DESC"

/-- Marker dispatched on by the first branch of `InMemoryDatabase.fetch`. -/
def chunkSelectMarker : String :=
  "SELECT c.id, c.document_id, c.chunk_index, c.content, c.embedding, d.filename"

/-- Marker dispatched on by the second branch of `InMemoryDatabase.fetch`. -/
def searchSelectMarker : String := "SELECT dc.content, dc.chunk_index, dc.document_id"

/-- `InMemoryDatabase.execute`: dispatch on substrings of the query text,
exactly mirroring the `if/elif` chain of the source. -/
def MemDB.execute (s : MemDB) (q : String) (ps : List PVal) : MemDB :=
  if occursIn "INSERT INTO documents" q then
    let row : DocRow :=
      ⟨(ps.getD 1 (.pstr "")).asStr, (ps.getD 2 (.poptStr none)).asOptStr,
       (ps.getD 3 (.pnat 0)).asNat⟩
    { s with documents := dictSetS s.documents ((ps.getD 0 (.pstr "")).asStr) row }
  else if occursIn "INSERT INTO document_chunks" q then
    let cid := (ps.getD 0 (.pnat 0)).asNat
    let row : ChunkRow :=
      ⟨(ps.getD 1 (.pstr "")).asStr, (ps.getD 2 (.pnat 0)).asNat,
       (ps.getD 3 (.pchars [])).asChars⟩
    let s' := { s with chunks := dictSet s.chunks cid row }
    if 4 < ps.length then
      { s' with embeddings := dictSet s'.embeddings cid ((ps.getD 4 (.pvec [])).asVec) }
    else s'
  else if occursIn "DELETE FROM document_chunks WHERE document_id" q then
    let docId := (ps.getD 0 (.pstr "")).asStr
    let removed := (s.chunks.filter (fun p => p.2.document_id == docId)).map Prod.fst
    { s with chunks := s.chunks.filter (fun p => !(p.2.document_id == docId)),
             embeddings := s.embeddings.filter (fun p => !(removed.contains p.1)) }
  else if occursIn "DELETE FROM documents WHERE id" q then
    { s with documents := s.documents.filter (fun p => !(p.1 == (ps.getD 0 (.pstr "")).asStr)) }
  else s

/-! ## Inserting and deleting documents (`_store_in_db`, `delete_document`) -/

/-- The chunk-insertion loop of `_store_in_db` (memory-database branch):
`for idx, (content, embedding) in enumerate(zip(chunks, embeddings))`, each
iteration drawing a fresh uuid for the chunk row. -/
def insertChunks (docId : String) : MemDB → ℕ → List (List Char × List ℚ) → MemDB
  | s, _, [] => s
  | s, idx, (content, emb) :: rest =>
    let s' := s.execute insertChunkSQL
      [.pnat s.nextId, .pstr docId, .pnat idx, .pchars content, .pvec emb]
    insertChunks docId { s' with nextId := s.nextId + 1 } (idx + 1) rest

/-- `_store_in_db(document_id, filename, mime_type, chunks, embeddings)` on the
memory backend: the length check raises `ValueError` before any write; then the
document row and the chunk rows are written. -/
def store_in_db (s : MemDB) (docId filename : String) (mime : Option String)
    (chunks : List (List Char)) (embs : List (List ℚ)) : Except String MemDB :=
  if chunks.length ≠ embs.length then .error "Chunks and embeddings length mismatch"
  else .ok (insertChunks docId
    (s.execute insertDocSQL [.pstr docId, .pstr filename, .poptStr mime, .pnat chunks.length])
    0 (chunks.zip embs))

/-- The `DELETE /{document_id}` route body on the memory backend: delete the
chunk rows, then the document row. -/
def delete_document (s : MemDB) (docId : String) : MemDB :=
  (s.execute deleteChunksSQL [.pstr docId]).execute deleteDocSQL [.pstr docId]

/-! ## Similarity search (`InMemoryDatabase._cosine_distance` and `fetch`) -/

/-- The sum of squares under the `** 0.5` of `_cosine_distance`. -/
def sumSq (v : List ℚ) : ℚ := (v.map (fun a => a * a)).sum

/-- The dot product `sum(a * b for a, b in zip(vec1, vec2))`. -/
def dotQ (v1 v2 : List ℚ) : ℚ := ((v1.zip v2).map (fun p => p.1 * p.2)).sum

/-- `InMemoryDatabase._cosine_distance(vec1, vec2)`: guard empty or
length-mismatched vectors with 1.0, guard zero magnitudes with 1.0, else
`1 - dot / (|vec1| * |vec2|)`. Python floats are idealised as exact reals. -/
noncomputable def cosine_distance (v1 v2 : List ℚ) : ℝ :=
  if v1 = [] ∨ v2 = [] ∨ v1.length ≠ v2.length then 1
  else
    let magnitude1 : ℝ := Real.sqrt ((sumSq v1 : ℚ) : ℝ)
    let magnitude2 : ℝ := Real.sqrt ((sumSq v2 : ℚ) : ℝ)
    if magnitude1 = 0 ∨ magnitude2 = 0 then 1
    else 1 - ((dotQ v1 v2 : ℚ) : ℝ) / (magnitude1 * magnitude2)

/-- A result dict of the similarity-search branch of `fetch`. -/
structure SearchRow where
  content : List Char
  chunk_index : ℕ
  document_id : String
  distance : ℝ

/-- The row built for one stored chunk by the similarity-search branch of
`fetch`: the chunk embedding is `self.embeddings.get(chunk_id, [])`, and the
distance falls back to 1.0 unless both embeddings are non-empty. -/
noncomputable def rowFor (s : MemDB) (queryEmb : List ℚ) (p : ℕ × ChunkRow) : SearchRow :=
  let chunkEmb := (s.embeddings.lookup p.1).getD []
  { content := p.2.content
    chunk_index := p.2.chunk_index
    document_id := p.2.document_id
    distance :=
      if chunkEmb ≠ [] ∧ queryEmb ≠ [] then cosine_distance queryEmb chunkEmb else 1 }

/-- The `results_with_distance` list of `fetch` before sorting: one row per
stored chunk, in dict (insertion) order. -/
noncomputable def searchRowsRaw (s : MemDB) (queryEmb : List ℚ) : List SearchRow :=
  s.chunks.map (rowFor s queryEmb)

/-- Comparison used by `results_with_distance.sort(key=lambda x: x['distance'])`. -/
def distLE (a b : SearchRow) : Prop := a.distance ≤ b.distance

/-- The similarity-search branch of `fetch`: some stable ascending-distance
sort of the rows, truncated to `limit`. Python's sort is deterministic
(stable); this relation admits every distance-sorted permutation, which is
sound for all properties stated below. -/
def SearchOutcome (s : MemDB) (queryEmb : List ℚ) (limit : ℕ) (out : List SearchRow) : Prop :=
  ∃ sorted : List SearchRow, sorted.Perm (searchRowsRaw s queryEmb) ∧
    sorted.Sorted distLE ∧ out = sorted.take limit

/-- A row returned by `InMemoryDatabase.fetch` (the two branches build values
of different shapes: 6-tuples vs. result dicts). -/
inductive FetchRow where
  | chunkTup (id : ℕ) (documentId : String) (chunkIndex : ℕ) (content : List Char)
      (embedding : List ℚ) (filename : String)
  | hit (r : SearchRow)

/-- The first branch of `fetch` (`SELECT c.id, ...`): up to `limit` chunks
joined with their document filename (default limit 1000). -/
def chunkListRows (s : MemDB) (ps : List PVal) : List FetchRow :=
  let limit := match ps with
    | [] => 1000
    | p :: _ => p.asNat
  (s.chunks.take limit).map (fun p =>
    let doc := s.documents.lookup p.2.document_id
    .chunkTup p.1 p.2.document_id p.2.chunk_index p.2.content
      ((s.embeddings.lookup p.1).getD []) ((doc.map DocRow.filename).getD "Unknown"))

/-- The query-embedding parameter of the search branch:
`params[0] if params else []`. -/
def qEmbParam (ps : List PVal) : List ℚ :=
  match ps with
  | [] => []
  | p :: _ => p.asVec

/-- The limit parameter of the search branch: `params[1] if len(params) > 1 else 5`. -/
def limitParam (ps : List PVal) : ℕ :=
  match ps with
  | _ :: p :: _ => p.asNat
  | _ => 5

/-- `InMemoryDatabase.fetch`: dispatch on substrings of the query text,
mirroring the source; any unrecognised query returns `[]`. -/
def MemDB.fetch (s : MemDB) (q : String) (ps : List PVal) (out : List FetchRow) : Prop :=
  if occursIn chunkSelectMarker q then out = chunkListRows s ps
  else if occursIn searchSelectMarker q ∧ occursIn "distance" q then
    ∃ hits, SearchOutcome s (qEmbParam ps) (limitParam ps) hits ∧ out = hits.map .hit
  else out = []

/-! ## Routes: `list_documents`, `query_ask`, `ingest_upload` -/

/-- One entry of the `list_documents` response (`created_at` omitted — the
memory rows do not carry that key at all, the route would render "unknown"). -/
structure DocEntry where
  id : String
  filename : String
  mime_type : Option String
  total_chunks : ℕ
deriving DecidableEq

/-- How the `/list` route renders one fetched row (it reads the dict keys
`id`, `filename`, `mime_type`, `total_chunks`; junk for a non-dict row, which
no reachable fetch result contains). -/
def rowToDocEntry : FetchRow → DocEntry
  | .chunkTup id _ _ _ _ filename => ⟨toString id, filename, none, 0⟩
  | .hit r => ⟨r.document_id, "", none, 0⟩

/-- The `/list` route (`list_documents` in `text_documents.py`) on the memory
backend: fetch with the documents-listing SQL and render each row. -/
def ListDocsOutcome (s : MemDB) (out : List DocEntry) : Prop :=
  ∃ rows, s.fetch listDocsSQL [] rows ∧ out = rows.map rowToDocEntry

/-- Modelled from the spec: the durable (PostgreSQL) backend's document
listing, `list_documents() -> [{id, filename, mime_type, total_chunks,
created_at}]` — one entry per stored document row. The durable engine itself
is not part of src/; only the SQL it is sent is. -/
def durableListDocuments (docs : List (String × DocRow)) : List DocEntry :=
  docs.map (fun p => ⟨p.1, p.2.filename, p.2.mime_type, p.2.total_chunks⟩)

/-- A source entry of the `/ask` response. -/
structure Source where
  content : List Char
  chunk_index : ℕ
  document_id : String

/-- The `/ask` response (`QueryResponse` in `query.py`). -/
structure QueryResponse where
  answer : String
  sources : List Source
  total_chunks : ℕ

def rowToSource (r : SearchRow) : Source :=
  ⟨r.content, r.chunk_index, r.document_id⟩

/-- The canned `/ask` answer when the search returns no rows. -/
def noResultsAnswer : String :=
  "No relevant documents found. Please upload some documents first."

/-- The canned `/ask` response: empty sources, `total_chunks = 0`. -/
def cannedResponse : QueryResponse := ⟨noResultsAnswer, [], 0⟩

/-- The tail of `query_ask` after the search: short-circuit to the canned
response on zero rows, else build sources and call the generation chain
(`_synthesize_answer`, passed in as `synth` — its invocation is observable
as the dependence of the result on `synth`). -/
def queryAskFromRows (rows : List SearchRow)
    (synth : String → List Source → ℕ → String) (question : String)
    (maxTokens : ℕ) : QueryResponse :=
  match rows with
  | [] => cannedResponse
  | _ =>
    let sources := rows.map rowToSource
    ⟨synth question sources maxTokens, sources, sources.length⟩

/-- `query_ask` from the search step on (the question embedding `queryEmb` is
produced by the provider chain, external to this model): fetch with the search
SQL, then `queryAskFromRows`. -/
def QueryAsk (s : MemDB) (question : String) (queryEmb : List ℚ)
    (maxChunks maxTokens : ℕ) (synth : String → List Source → ℕ → String)
    (resp : QueryResponse) : Prop :=
  ∃ hits, SearchOutcome s queryEmb maxChunks hits ∧
    resp = queryAskFromRows hits synth question maxTokens

/-- The result of an API call, as the caller sees it: `clientFault` is an
HTTP 400 (`ValueError` caught in `ingest_upload`), `serverFault` a 5xx. -/
inductive ApiResult (α : Type) where
  | ok (a : α)
  | clientFault (msg : String)
  | serverFault (msg : String)
deriving DecidableEq

/-- The store step of `ingest_upload` with its error surfacing: a `ValueError`
from `_store_in_db` becomes a client-fault (HTTP 400) response and the store
is returned unchanged (the error is raised before any write). -/
def ingestUploadStore (s : MemDB) (docId filename : String) (mime : Option String)
    (chunks : List (List Char)) (embs : List (List ℚ)) : ApiResult ℕ × MemDB :=
  match store_in_db s docId filename mime chunks embs with
  | .error e => (.clientFault e, s)
  | .ok s' => (.ok chunks.length, s')

/-! ## Backend selection (`src/backend/database.py`) -/

/-- Which backend served a request. -/
inductive Backend where
  | durable
  | memory
deriving DecidableEq

/-- The operations that consult `_using_memory_db`, each tagged with whether
the PostgreSQL attempt would succeed (an input of the environment).
`MEMORY_DB_AVAILABLE` is `True` in this repository (the import succeeds). -/
inductive DbOp where
  | getConn (pgOk : Bool)
  | getPool (pgOk : Bool)
  | initDb (pgOk : Bool)
deriving DecidableEq

/-- The new value of `_using_memory_db` after one operation: when the flag is
unset the durable backend is attempted and any failure sets the flag; once the
flag is set the body skips the attempt and the flag is never written again. -/
def stepFlag (flag : Bool) : DbOp → Bool
  | .getConn pgOk | .getPool pgOk | .initDb pgOk => if flag then true else !pgOk

/-- Whether the operation attempts to reach PostgreSQL (`asyncpg.connect` or
`asyncpg.create_pool` is called only under `if not _using_memory_db`). -/
def attemptsPg (flag : Bool) (_ : DbOp) : Bool := !flag

/-- The backend that serves the request. -/
def servedBackend (flag : Bool) : DbOp → Backend
  | .getConn pgOk | .getPool pgOk | .initDb pgOk =>
    if flag then .memory else if pgOk then .durable else .memory

/-! ## Lemmas about the chunker -/

lemma scanBack_bounds {text : List Char} {p : Char → Bool} {lo i : ℕ} :
    ∀ {hi : ℕ}, scanBack text p lo hi = some i → lo < i ∧ i ≤ hi := by
  intro hi
  induction hi with
  | zero => intro h; simp [scanBack] at h
  | succ n ih =>
    intro h
    unfold scanBack at h
    split at h
    · exact absurd h (by simp)
    · split at h
      · cases h; omega
      · have := ih h; omega

/-- The cut never backtracks more than 98 characters below `start + chunk_size`. -/
lemma chunkEnd_ge (text : List Char) (chunkSize start : ℕ) :
    start + chunkSize - 98 ≤ chunkEnd text chunkSize start := by
  unfold chunkEnd
  dsimp only
  split
  · split
    · next i heq =>
      have hb := scanBack_bounds heq
      have hm : start + chunkSize - 100 ≤ max (start + chunkSize - 100) start :=
        le_max_left _ _
      omega
    · split
      · next i heq =>
        have hb := scanBack_bounds heq
        have hm : start + chunkSize - 50 ≤ max (start + chunkSize - 50) start :=
          le_max_left _ _
        omega
      · omega
  · omega

/-- Termination of the chunking loop when `overlap + 98 < chunk_size`:
`text.length + 1` fuel always suffices. -/
lemma chunkLoop_isSome (text : List Char) {chunkSize overlap : ℕ}
    (hov : overlap + 98 < chunkSize) :
    ∀ fuel start acc, text.length - start < fuel →
      (chunkLoop text chunkSize overlap fuel start acc).isSome := by
  intro fuel
  induction fuel with
  | zero => intro start acc h; omega
  | succ n ih =>
    intro start acc h
    unfold chunkLoop
    split
    · next hlt =>
      apply ih
      have h1 := chunkEnd_ge text chunkSize start
      omega
    · simp

/-! ## Lemmas about `str.strip()` -/

lemma dropWhile_dropWhile {α : Type} (p : α → Bool) (l : List α) :
    (l.dropWhile p).dropWhile p = l.dropWhile p := by
  induction l with
  | nil => rfl
  | cons a t ih =>
    by_cases h : p a
    · simp [List.dropWhile_cons, h, ih]
    · simp [List.dropWhile_cons, h]

lemma dropWhile_fix_cons {α : Type} {p : α → Bool} {a : α} {t : List α}
    (h : (a :: t).dropWhile p = a :: t) : p a = false := by
  by_cases hp : p a
  · rw [List.dropWhile_cons, if_pos hp] at h
    have hlen := congrArg List.length h
    have hle := (List.dropWhile_sublist (l := t) p).length_le
    simp at hlen
    omega
  · simpa using hp

/-- Trailing-whitespace trim, the second half of `str.strip()`. -/
def rightStrip (p : Char → Bool) (l : List Char) : List Char :=
  (l.reverse.dropWhile p).reverse

lemma pyStrip_eq (l : List Char) : pyStrip l = rightStrip pyWS (l.dropWhile pyWS) := rfl

lemma rightStrip_cons (p : Char → Bool) (a : Char) (l : List Char) :
    rightStrip p (a :: l) =
      if rightStrip p l = [] then (if p a then [] else [a]) else a :: rightStrip p l := by
  unfold rightStrip
  rw [List.reverse_cons, List.dropWhile_append]
  by_cases h : (l.reverse.dropWhile p).isEmpty
  · rw [if_pos h, if_pos]
    · cases hpa : p a <;> simp [List.dropWhile, hpa]
    · simpa [List.isEmpty_iff] using h
  · rw [if_neg h, if_neg]
    · simp
    · simpa [List.isEmpty_iff] using h

lemma rightStrip_leftFixed {l : List Char} (hl : l.dropWhile pyWS = l) :
    (rightStrip pyWS l).dropWhile pyWS = rightStrip pyWS l := by
  cases l with
  | nil => rfl
  | cons a t =>
    have ha : pyWS a = false := dropWhile_fix_cons hl
    rw [rightStrip_cons]
    by_cases h : rightStrip pyWS t = []
    · rw [if_pos h, if_neg (by simp [ha])]
      simp [List.dropWhile_cons, ha]
    · rw [if_neg h]
      simp [List.dropWhile_cons, ha]

lemma rightStrip_idem (p : Char → Bool) (l : List Char) :
    rightStrip p (rightStrip p l) = rightStrip p l := by
  unfold rightStrip
  rw [List.reverse_reverse, dropWhile_dropWhile]

/-- `str.strip()` is idempotent: stripping a stripped chunk changes nothing. -/
lemma pyStrip_idem (l : List Char) : pyStrip (pyStrip l) = pyStrip l := by
  have hfix : (pyStrip l).dropWhile pyWS = pyStrip l := by
    rw [pyStrip_eq]
    exact rightStrip_leftFixed (dropWhile_dropWhile _ _)
  rw [pyStrip_eq l] at hfix ⊢
  rw [pyStrip_eq, hfix, rightStrip_idem]

/-- Every chunk accumulated by the loop is a `.strip()` image. -/
lemma chunkLoop_stripped {text : List Char} {chunkSize overlap : ℕ} :
    ∀ fuel start acc out, (∀ c ∈ acc, pyStrip c = c) →
      chunkLoop text chunkSize overlap fuel start acc = some out →
      ∀ c ∈ out, pyStrip c = c := by
  intro fuel
  induction fuel with
  | zero => intro start acc out _ hc; simp [chunkLoop] at hc
  | succ n ih =>
    intro start acc out hacc heq
    unfold chunkLoop at heq
    split at heq
    · refine ih _ _ _ ?_ heq
      intro c hc
      rcases List.mem_append.mp hc with h | h
      · exact hacc c h
      · simp only [List.mem_singleton] at h
        subst h
        exact pyStrip_idem _
    · cases heq
      exact hacc

/-! ## Claim C2 — chunker termination -/

/-- C2. The claim states termination (strict cursor advance) for every
`chunk_size > 0` and `0 ≤ overlap < chunk_size`. That is false on the code
(see the counterexample): the boundary search can move the cut up to 98
characters below `start + chunk_size`, so the cursor can stall. Amended claim:
for every input text and every pair with `overlap + 98 < chunk_size`, the
cursor strictly advances on every iteration and the loop terminates —
`text.length + 1` fuel always yields a result. -/
theorem c2_chunk_loop_terminates (text : List Char) (chunkSize overlap : ℕ)
    (hov : overlap + 98 < chunkSize) :
    (∀ start, start < text.length → start < chunkEnd text chunkSize start - overlap) ∧
    (chunk_text (text.length + 1) text chunkSize overlap).isSome := by
  constructor
  · intro start _
    have h1 := chunkEnd_ge text chunkSize start
    omega
  · unfold chunk_text
    split
    · simp
    · have h := chunkLoop_isSome text hov (text.length + 1) 0 [] (by omega)
      cases hmap : chunkLoop text chunkSize overlap (text.length + 1) 0 [] with
      | none => rw [hmap] at h; simp at h
      | some chunks => simp

/-- Witness for C2 at `text = 120 × 'a'`, `chunk_size = 99`, `overlap = 0`. -/
theorem c2_chunk_loop_terminates_witness :
    0 + 98 < 99 ∧
    ((∀ start, start < (List.replicate 120 'a').length →
        start < chunkEnd (List.replicate 120 'a') 99 start - 0) ∧
      (chunk_text ((List.replicate 120 'a').length + 1)
        (List.replicate 120 'a') 99 0).isSome) :=
  ⟨by norm_num, c2_chunk_loop_terminates (List.replicate 120 'a') 99 0 (by norm_num)⟩

/-- 50 `'a'`s, a period, then 60 `'a'`s: the sentence-boundary search always
cuts just after position 50, so from cursor 1 the loop never advances. -/
def exCursorText : List Char := List.replicate 50 'a' ++ '.' :: List.replicate 60 'a'

lemma exCursor_stuck : ∀ fuel acc, chunkLoop exCursorText 100 50 fuel 1 acc = none := by
  intro fuel
  induction fuel with
  | zero => intro acc; rfl
  | succ n ih =>
    intro acc
    unfold chunkLoop
    rw [if_pos (by decide)]
    show chunkLoop exCursorText 100 50 n (chunkEnd exCursorText 100 1 - 50) _ = none
    rw [show chunkEnd exCursorText 100 1 = 51 from by decide]
    exact ih _

/-- C2 counterexample: with `chunk_size = 100 > 0` and `0 ≤ overlap = 50 < 100`
(valid per the claim), the cursor does not advance from position 1
(`chunkEnd - overlap = 1`) and the loop never terminates — 1000 iterations of
fuel are exhausted with the cursor still inside the text. -/
theorem c2_counterexample :
    chunkEnd exCursorText 100 1 - 50 = 1 ∧ 1 < exCursorText.length ∧
    chunk_text 1000 exCursorText 100 50 = none := by
  refine ⟨by decide, by decide, ?_⟩
  unfold chunk_text
  rw [if_neg (by decide)]
  rw [show (1000 : ℕ) = 999 + 1 from rfl]
  unfold chunkLoop
  rw [if_pos (by decide)]
  show (chunkLoop exCursorText 100 50 999 (chunkEnd exCursorText 100 0 - 50) _).map _ = none
  rw [show chunkEnd exCursorText 100 0 = 51 from by decide]
  rw [exCursor_stuck 999 _]
  rfl

/-! ## Claim C5 — chunks non-empty after trimming -/

/-- C5. The claim asserts every returned chunk is non-empty after trimming,
including the short-input path. That is false for inputs that are empty (or
all whitespace): the short path returns `[text]` untrimmed and unfiltered (see
the counterexample). Amended claim: for every input text whose
whitespace-trimmed form is non-empty, and every chunk_size/overlap/fuel on
which the chunker returns, every returned chunk is non-empty after trimming. -/
theorem c5_chunks_nonempty_after_trim (fuel : ℕ) (text : List Char)
    (chunkSize overlap : ℕ) (out : List (List Char)) (htext : pyStrip text ≠ [])
    (h : chunk_text fuel text chunkSize overlap = some out) :
    ∀ c ∈ out, pyStrip c ≠ [] := by
  unfold chunk_text at h
  split at h
  · cases h
    intro c hc
    simp only [List.mem_singleton] at hc
    subst hc
    exact htext
  · cases hloop : chunkLoop text chunkSize overlap fuel 0 [] with
    | none => rw [hloop] at h; simp at h
    | some chunks =>
      rw [hloop] at h
      have h2 : (chunks.filter fun c => decide (c ≠ [])) = out := by injection h
      subst h2
      intro c hc
      have hmem := List.mem_filter.mp hc
      have hst := chunkLoop_stripped fuel 0 [] chunks (by simp) hloop c hmem.1
      rw [hst]
      exact of_decide_eq_true hmem.2

/-- Witness for C5 at `text = "hi"`, default-like parameters. -/
theorem c5_chunks_nonempty_after_trim_witness :
    pyStrip ['h', 'i'] ≠ [] ∧
    chunk_text 1 ['h', 'i'] 1000 200 = some [['h', 'i']] ∧
    ∀ c ∈ [['h', 'i']], pyStrip c ≠ [] :=
  ⟨by decide, by decide,
    c5_chunks_nonempty_after_trim 1 ['h', 'i'] 1000 200 [['h', 'i']]
      (by decide) (by decide)⟩

/-- C5 counterexample: the empty input takes the short path and the returned
single chunk is empty (so also empty after trimming) — the "drop empty
chunks" step never runs on the short path. -/
theorem c5_counterexample :
    chunk_text 1 [] 1000 200 = some [[]] ∧ pyStrip ([] : List Char) = [] :=
  ⟨rfl, rfl⟩

/-! ## Lemmas about the store operations -/

lemma execute_insertDoc (s : MemDB) (d f : String) (m : Option String) (n : ℕ) :
    s.execute insertDocSQL [.pstr d, .pstr f, .poptStr m, .pnat n] =
      { s with documents := dictSetS s.documents d (DocRow.mk f m n) } := by
  unfold MemDB.execute
  rw [if_pos (by decide)]
  rfl

lemma execute_insertChunk (s : MemDB) (cid : ℕ) (d : String) (idx : ℕ)
    (content : List Char) (emb : List ℚ) :
    s.execute insertChunkSQL [.pnat cid, .pstr d, .pnat idx, .pchars content, .pvec emb] =
      { s with chunks := dictSet s.chunks cid (ChunkRow.mk d idx content),
               embeddings := dictSet s.embeddings cid emb } := by
  unfold MemDB.execute
  rw [if_neg (by decide), if_pos (by decide)]
  dsimp only
  rw [if_pos (by simp)]
  rfl

lemma execute_deleteChunks (s : MemDB) (d : String) :
    s.execute deleteChunksSQL [.pstr d] =
      { s with chunks := s.chunks.filter (fun p => !(p.2.document_id == d)),
               embeddings := s.embeddings.filter (fun p =>
                 !(((s.chunks.filter (fun p => p.2.document_id == d)).map
                     Prod.fst).contains p.1)) } := by
  unfold MemDB.execute
  rw [if_neg (by decide), if_neg (by decide), if_pos (by decide)]
  rfl

lemma execute_deleteDoc (s : MemDB) (d : String) :
    s.execute deleteDocSQL [.pstr d] =
      { s with documents := s.documents.filter (fun p => !(p.1 == d)) } := by
  unfold MemDB.execute
  rw [if_neg (by decide), if_neg (by decide), if_neg (by decide), if_pos (by decide)]
  rfl

/-- The full effect of the delete route on the memory store. -/
lemma delete_document_spec (s : MemDB) (d : String) :
    delete_document s d = { s with
      documents := s.documents.filter (fun p => !(p.1 == d)),
      chunks := s.chunks.filter (fun p => !(p.2.document_id == d)),
      embeddings := s.embeddings.filter (fun p =>
        !(((s.chunks.filter (fun p => p.2.document_id == d)).map
            Prod.fst).contains p.1)) } := by
  unfold delete_document
  rw [execute_deleteChunks, execute_deleteDoc]

lemma dictSet_fresh {β : Type} {l : List (ℕ × β)} {k : ℕ} (h : ∀ p ∈ l, p.1 ≠ k)
    (v : β) : dictSet l k v = l ++ [(k, v)] := by
  have hk : hasKey l k = false := by
    unfold hasKey
    rw [List.any_eq_false]
    intro p hp
    simpa using h p hp
  unfold dictSet
  rw [hk]
  simp

lemma dictSetS_fresh {β : Type} {l : List (String × β)} {k : String}
    (h : ∀ p ∈ l, p.1 ≠ k) (v : β) : dictSetS l k v = l ++ [(k, v)] := by
  have hk : hasKeyS l k = false := by
    unfold hasKeyS
    rw [List.any_eq_false]
    intro p hp
    simpa using h p hp
  unfold dictSetS
  rw [hk]
  simp

/-- The chunk rows appended by `insertChunks` when all drawn ids are fresh:
ids count up from `n`, indices from `idx`. -/
def tagChunks (d : String) : ℕ → ℕ → List (List Char × List ℚ) → List (ℕ × ChunkRow)
  | _, _, [] => []
  | n, idx, (c, _) :: rest => (n, ChunkRow.mk d idx c) :: tagChunks d (n + 1) (idx + 1) rest

/-- The embedding entries appended by `insertChunks`. -/
def tagEmbs : ℕ → List (List Char × List ℚ) → List (ℕ × List ℚ)
  | _, [] => []
  | n, (_, e) :: rest => (n, e) :: tagEmbs (n + 1) rest

/-- All ids drawn by the store are below the fresh-id counter (the model of
uuid4 freshness); under it, dict assignment of a chunk row is an append. -/
def KeysFresh (s : MemDB) : Prop :=
  (∀ p ∈ s.chunks, p.1 < s.nextId) ∧ (∀ p ∈ s.embeddings, p.1 < s.nextId)

lemma insertChunks_spec (d : String) :
    ∀ (l : List (List Char × List ℚ)) (s : MemDB) (idx : ℕ), KeysFresh s →
      insertChunks d s idx l = { s with
        chunks := s.chunks ++ tagChunks d s.nextId idx l,
        embeddings := s.embeddings ++ tagEmbs s.nextId l,
        nextId := s.nextId + l.length } := by
  intro l
  induction l with
  | nil => intro s idx _; simp [insertChunks, tagChunks, tagEmbs]
  | cons a rest ih =>
    rintro s idx ⟨hc, he⟩
    obtain ⟨c, e⟩ := a
    show insertChunks d
      ({ s.execute insertChunkSQL
          [.pnat s.nextId, .pstr d, .pnat idx, .pchars c, .pvec e] with
        nextId := s.nextId + 1 }) (idx + 1) rest = _
    rw [execute_insertChunk]
    rw [dictSet_fresh (fun p hp => Nat.ne_of_lt (hc p hp)) _,
        dictSet_fresh (fun p hp => Nat.ne_of_lt (he p hp)) _]
    rw [ih _ _ ⟨?_, ?_⟩]
    · simp only [tagChunks, tagEmbs, List.append_assoc, List.singleton_append,
        List.length_cons]
      refine congrArg₂ _ rfl ?_
      omega
    · intro p hp
      rcases List.mem_append.mp hp with h | h
      · exact Nat.lt_succ_of_lt (hc p h)
      · simp only [List.mem_singleton] at h
        subst h
        exact Nat.lt_succ_self _
    · intro p hp
      rcases List.mem_append.mp hp with h | h
      · exact Nat.lt_succ_of_lt (he p h)
      · simp only [List.mem_singleton] at h
        subst h
        exact Nat.lt_succ_self _

/-- The full effect of a successful `_store_in_db` on the memory store. -/
lemma store_in_db_ok {s : MemDB} {d f : String} {m : Option String}
    {cs : List (List Char)} {es : List (List ℚ)} (hlen : cs.length = es.length)
    (hfresh : KeysFresh s) :
    store_in_db s d f m cs es = .ok { s with
      documents := dictSetS s.documents d (DocRow.mk f m cs.length),
      chunks := s.chunks ++ tagChunks d s.nextId 0 (cs.zip es),
      embeddings := s.embeddings ++ tagEmbs s.nextId (cs.zip es),
      nextId := s.nextId + (cs.zip es).length } := by
  unfold store_in_db
  rw [if_neg (by omega)]
  rw [execute_insertDoc]
  rw [insertChunks_spec d (cs.zip es)
    { s with documents := dictSetS s.documents d (DocRow.mk f m cs.length) } 0 hfresh]

/-! ## The chunk-count invariant (C4) -/

/-- The chunk rows persisted for document `d`. -/
def chunksOf (s : MemDB) (d : String) : List (ℕ × ChunkRow) :=
  s.chunks.filter (fun p => p.2.document_id == d)

/-- The spec invariant: each document's `total_chunks` equals the number of
chunk rows persisted under its id, and those rows carry the dense index
sequence `0..N-1` (in storage order). -/
def ChunkCountInv (s : MemDB) : Prop :=
  ∀ p ∈ s.documents,
    p.2.total_chunks = (chunksOf s p.1).length ∧
    (chunksOf s p.1).map (fun q => q.2.chunk_index) =
      List.range (chunksOf s p.1).length

lemma tagChunks_filter_self (d : String) :
    ∀ (l : List (List Char × List ℚ)) (n idx : ℕ),
      (tagChunks d n idx l).filter (fun p => p.2.document_id == d) =
        tagChunks d n idx l := by
  intro l
  induction l with
  | nil => intro n idx; rfl
  | cons a rest ih =>
    intro n idx
    obtain ⟨c, e⟩ := a
    simp [tagChunks, List.filter_cons, ih]

lemma tagChunks_filter_ne (d d' : String) (hne : d' ≠ d) :
    ∀ (l : List (List Char × List ℚ)) (n idx : ℕ),
      (tagChunks d n idx l).filter (fun p => p.2.document_id == d') = [] := by
  intro l
  induction l with
  | nil => intro n idx; rfl
  | cons a rest ih =>
    intro n idx
    obtain ⟨c, e⟩ := a
    simp [tagChunks, List.filter_cons, ih, Ne.symm hne]

lemma tagChunks_length (d : String) :
    ∀ (l : List (List Char × List ℚ)) (n idx : ℕ),
      (tagChunks d n idx l).length = l.length := by
  intro l
  induction l with
  | nil => intro n idx; rfl
  | cons a rest ih =>
    intro n idx
    obtain ⟨c, e⟩ := a
    simp [tagChunks, ih]

lemma tagChunks_map_index (d : String) :
    ∀ (l : List (List Char × List ℚ)) (n idx : ℕ),
      (tagChunks d n idx l).map (fun q => q.2.chunk_index) =
        List.range' idx l.length := by
  intro l
  induction l with
  | nil => intro n idx; rfl
  | cons a rest ih =>
    intro n idx
    obtain ⟨c, e⟩ := a
    simp [tagChunks, List.range'_succ, ih]

lemma tagChunks_key_lt (d : String) :
    ∀ (l : List (List Char × List ℚ)) (n idx : ℕ) (p : ℕ × ChunkRow),
      p ∈ tagChunks d n idx l → p.1 < n + l.length := by
  intro l
  induction l with
  | nil => intro n idx p hp; simp [tagChunks] at hp
  | cons a rest ih =>
    intro n idx p hp
    obtain ⟨c, e⟩ := a
    rcases hp with _ | hp
    · simp
    · next hp' =>
      have := ih (n + 1) (idx + 1) p hp'
      simp only [List.length_cons]
      omega

lemma tagEmbs_key_lt :
    ∀ (l : List (List Char × List ℚ)) (n : ℕ) (p : ℕ × List ℚ),
      p ∈ tagEmbs n l → p.1 < n + l.length := by
  intro l
  induction l with
  | nil => intro n p hp; simp [tagEmbs] at hp
  | cons a rest ih =>
    intro n p hp
    obtain ⟨c, e⟩ := a
    rcases hp with _ | hp
    · simp
    · next hp' =>
      have := ih (n + 1) p hp'
      simp only [List.length_cons]
      omega

/-! ## Claim C4 — `total_chunks` equals persisted chunk count -/

/-- C4. The claim asserts the invariant is preserved by every insert,
including a duplicate-id insert ("a no-op that does not duplicate rows").
That is false on the code (see the counterexample): only the document row is
idempotent; the chunk rows are inserted again under fresh ids. Amended claim:
for every document, `total_chunks` equals the number of persisted chunk rows
and their `chunk_index` values are the dense sequence `0..N-1`, and this
invariant is preserved by every `insert_document` whose id is not already
stored and by every `delete_document`; a duplicate-id insert leaves the
document row un-duplicated but appends a second copy of the chunk rows. -/
theorem c4_total_chunks_invariant :
    (∀ (s : MemDB) (d f : String) (m : Option String) (cs : List (List Char))
        (es : List (List ℚ)) (s' : MemDB),
        KeysFresh s → ChunkCountInv s → (∀ p ∈ s.documents, p.1 ≠ d) →
        chunksOf s d = [] → store_in_db s d f m cs es = Except.ok s' →
        KeysFresh s' ∧ ChunkCountInv s') ∧
    (∀ (s : MemDB) (d : String), KeysFresh s → ChunkCountInv s →
        KeysFresh (delete_document s d) ∧ ChunkCountInv (delete_document s d)) := by
  constructor
  · intro s d f m cs es s' hkf hinv hdocs hchunks hok
    by_cases hlen : cs.length = es.length
    · rw [store_in_db_ok hlen hkf] at hok
      injection hok with hok
      subst hok
      refine ⟨⟨?_, ?_⟩, ?_⟩
      · intro p hp
        simp only [List.mem_append] at hp
        rcases hp with h | h
        · have := hkf.1 p h
          simp only []
          omega
        · have := tagChunks_key_lt d (cs.zip es) s.nextId 0 p h
          simp only []
          omega
      · intro p hp
        simp only [List.mem_append] at hp
        rcases hp with h | h
        · have := hkf.2 p h
          simp only []
          omega
        · have := tagEmbs_key_lt (cs.zip es) s.nextId p h
          simp only []
          omega
      · intro p hp
        simp only [] at hp
        rw [dictSetS_fresh hdocs] at hp
        have hsplit : ∀ x : String,
            chunksOf { s with
              documents := dictSetS s.documents d (DocRow.mk f m cs.length),
              chunks := s.chunks ++ tagChunks d s.nextId 0 (cs.zip es),
              embeddings := s.embeddings ++ tagEmbs s.nextId (cs.zip es),
              nextId := s.nextId + (cs.zip es).length } x =
            chunksOf s x ++
              (tagChunks d s.nextId 0 (cs.zip es)).filter
                (fun p => p.2.document_id == x) := by
          intro x
          unfold chunksOf
          simp [List.filter_append]
        rcases List.mem_append.mp hp with h | h
        · have hne : p.1 ≠ d := hdocs p h
          rw [hsplit, tagChunks_filter_ne d p.1 hne, List.append_nil]
          exact hinv p h
        · simp only [List.mem_singleton] at h
          subst h
          rw [hsplit, hchunks, List.nil_append, tagChunks_filter_self,
            tagChunks_length, tagChunks_map_index]
          have hz : (cs.zip es).length = cs.length := by
            simp [hlen]
          rw [hz]
          exact ⟨rfl, (List.range_eq_range' cs.length).symm⟩
    · exfalso
      unfold store_in_db at hok
      rw [if_pos hlen] at hok
      cases hok
  · intro s d hkf hinv
    rw [delete_document_spec]
    refine ⟨⟨?_, ?_⟩, ?_⟩
    · intro p hp
      exact hkf.1 p (List.mem_of_mem_filter hp)
    · intro p hp
      exact hkf.2 p (List.mem_of_mem_filter hp)
    · intro p hp
      simp only [] at hp
      have hmem := List.mem_filter.mp hp
      have hne : p.1 ≠ d := by simpa using hmem.2
      have heq : chunksOf { s with
          documents := s.documents.filter (fun p => !(p.1 == d)),
          chunks := s.chunks.filter (fun p => !(p.2.document_id == d)),
          embeddings := s.embeddings.filter (fun p =>
            !(((s.chunks.filter (fun p => p.2.document_id == d)).map
                Prod.fst).contains p.1)) } p.1 = chunksOf s p.1 := by
        unfold chunksOf
        simp only []
        rw [List.filter_filter]
        apply List.filter_congr
        intro q _
        cases hqd : q.2.document_id == p.1
        · simp
        · have hq : q.2.document_id = p.1 := by simpa using hqd
          simp [hq, hne]
      rw [heq]
      exact hinv p hmem.1

/-- One ingestion of document id "d" with a single chunk (the error branch is
unreachable here: the counts match). -/
def exDupStep (s : MemDB) : MemDB :=
  match store_in_db s "d" "f" none [['a']] [[1]] with
  | .ok s' => s'
  | .error _ => s

/-- The store after inserting the same document id twice. -/
def exDup2 : MemDB := exDupStep (exDupStep MemDB.empty)

/-- C4 counterexample: after calling `insert_document` twice with the same id
"d", the single document row still says `total_chunks = 1`, but two chunk
rows are persisted under that id and their indices are `[0, 0]` — not a
dense `0..N-1` sequence. The duplicate insert is not a row-level no-op. -/
theorem c4_counterexample :
    exDup2.documents.map Prod.fst = ["d"] ∧
    (exDup2.documents.lookup "d").map DocRow.total_chunks = some 1 ∧
    (chunksOf exDup2 "d").length = 2 ∧
    (chunksOf exDup2 "d").map (fun q => q.2.chunk_index) = [0, 0] := by
  decide

/-- Witness for C4: both parts applied at the empty store. -/
theorem c4_total_chunks_invariant_witness :
    (KeysFresh (exDupStep MemDB.empty) ∧ ChunkCountInv (exDupStep MemDB.empty)) ∧
    (KeysFresh (delete_document MemDB.empty "x") ∧
      ChunkCountInv (delete_document MemDB.empty "x")) :=
  ⟨c4_total_chunks_invariant.1 MemDB.empty "d" "f" none [['a']] [[1]]
      (exDupStep MemDB.empty)
      (by constructor <;> simp [MemDB.empty])
      (by intro p hp; simp [MemDB.empty] at hp)
      (by intro p hp; simp [MemDB.empty] at hp)
      rfl rfl,
    c4_total_chunks_invariant.2 MemDB.empty "x"
      (by constructor <;> simp [MemDB.empty])
      (by intro p hp; simp [MemDB.empty] at hp)⟩

/-! ## Claim C6 — validation failure before any write -/

/-- C6. The memory-backend store step fails (with the `ValueError` carrying
"Chunks and embeddings length mismatch") exactly when the chunk and embedding
counts differ; the check precedes every write, so on failure the returned
store is the input store unchanged, and `ingest_upload` surfaces the error as
a client-fault (HTTP 400) response. -/
theorem c6_validation_before_write (s : MemDB) (docId filename : String)
    (m : Option String) (cs : List (List Char)) (es : List (List ℚ)) :
    ((∃ e, store_in_db s docId filename m cs es = .error e) ↔
      cs.length ≠ es.length) ∧
    (cs.length ≠ es.length →
      ingestUploadStore s docId filename m cs es =
        (.clientFault "Chunks and embeddings length mismatch", s)) := by
  have herr : cs.length ≠ es.length →
      store_in_db s docId filename m cs es =
        .error "Chunks and embeddings length mismatch" := by
    intro h
    unfold store_in_db
    rw [if_pos h]
  constructor
  · constructor
    · rintro ⟨e, he⟩
      by_cases h : cs.length = es.length
      · unfold store_in_db at he
        rw [if_neg (by omega)] at he
        cases he
      · exact h
    · intro h
      exact ⟨_, herr h⟩
  · intro h
    unfold ingestUploadStore
    rw [herr h]

/-- Witness for C6: one chunk, zero embeddings → client fault, store unchanged. -/
theorem c6_validation_before_write_witness :
    ingestUploadStore MemDB.empty "d" "f" none [['a']] [] =
      (.clientFault "Chunks and embeddings length mismatch", MemDB.empty) :=
  (c6_validation_before_write MemDB.empty "d" "f" none [['a']] []).2 (by decide)

/-! ## Claim C7 — delete removes the document and all its chunks -/

/-- Referential integrity: every chunk's `document_id` is a stored document. -/
def RefIntegrity (s : MemDB) : Prop :=
  ∀ p ∈ s.chunks, p.2.document_id ∈ s.documents.map Prod.fst

/-- The stores reachable through the modelled operations. -/
inductive Reachable : MemDB → Prop
  | empty : Reachable MemDB.empty
  | insert {s s' : MemDB} (d f : String) (m : Option String)
      (cs : List (List Char)) (es : List (List ℚ)) :
      Reachable s → store_in_db s d f m cs es = .ok s' → Reachable s'
  | delete {s : MemDB} (d : String) : Reachable s → Reachable (delete_document s d)

lemma mem_keys_dictSetS {β : Type} (l : List (String × β)) (k x : String) (v : β) :
    x ∈ (dictSetS l k v).map Prod.fst ↔ x ∈ l.map Prod.fst ∨ x = k := by
  unfold dictSetS
  by_cases h : hasKeyS l k
  · rw [if_pos h]
    have hkeys : (l.map fun p => if p.1 == k then (k, v) else p).map Prod.fst =
        l.map Prod.fst := by
      rw [List.map_map]
      apply List.map_congr_left
      intro p _
      by_cases hpk : p.1 = k
      · simp [hpk]
      · simp [hpk]
    rw [hkeys]
    constructor
    · exact Or.inl
    · rintro (hx | rfl)
      · exact hx
      · unfold hasKeyS at h
        rcases List.any_eq_true.mp h with ⟨p, hp, hpk⟩
        have : p.1 = x := by simpa using hpk
        exact this ▸ List.mem_map.mpr ⟨p, hp, rfl⟩
  · rw [if_neg h]
    simp

lemma tagChunks_docid (d : String) :
    ∀ (l : List (List Char × List ℚ)) (n idx : ℕ) (p : ℕ × ChunkRow),
      p ∈ tagChunks d n idx l → p.2.document_id = d := by
  intro l
  induction l with
  | nil => intro n idx p hp; simp [tagChunks] at hp
  | cons a rest ih =>
    intro n idx p hp
    obtain ⟨c, e⟩ := a
    rcases hp with _ | hp
    · rfl
    · next hp' => exact ih (n + 1) (idx + 1) p hp'

lemma reachable_inv : ∀ {s : MemDB}, Reachable s → KeysFresh s ∧ RefIntegrity s := by
  intro s h
  induction h with
  | empty =>
    refine ⟨⟨?_, ?_⟩, ?_⟩ <;> (intro p hp; simp [MemDB.empty] at hp)
  | insert d f m cs es hr hok ih =>
    by_cases hlen : cs.length = es.length
    · rw [store_in_db_ok hlen ih.1] at hok
      injection hok with hok
      subst hok
      refine ⟨⟨?_, ?_⟩, ?_⟩
      · intro p hp
        simp only [List.mem_append] at hp
        rcases hp with hmem | hmem
        · have := ih.1.1 p hmem
          simp only []
          omega
        · have := tagChunks_key_lt d (cs.zip es) _ 0 p hmem
          simp only []
          omega
      · intro p hp
        simp only [List.mem_append] at hp
        rcases hp with hmem | hmem
        · have := ih.1.2 p hmem
          simp only []
          omega
        · have := tagEmbs_key_lt (cs.zip es) _ p hmem
          simp only []
          omega
      · intro p hp
        simp only [List.mem_append] at hp
        rw [mem_keys_dictSetS]
        rcases hp with hmem | hmem
        · exact Or.inl (ih.2 p hmem)
        · exact Or.inr (tagChunks_docid d (cs.zip es) _ 0 p hmem)
    · exfalso
      unfold store_in_db at hok
      rw [if_pos hlen] at hok
      cases hok
  | delete d hr ih =>
    rw [delete_document_spec]
    refine ⟨⟨?_, ?_⟩, ?_⟩
    · intro p hp
      exact ih.1.1 p (List.mem_of_mem_filter hp)
    · intro p hp
      exact ih.1.2 p (List.mem_of_mem_filter hp)
    · intro p hp
      simp only [] at hp ⊢
      have hmem := List.mem_filter.mp hp
      have hne : p.2.document_id ≠ d := by simpa using hmem.2
      have hkey := ih.2 p hmem.1
      rcases List.mem_map.mp hkey with ⟨q, hq, hq1⟩
      exact List.mem_map.mpr ⟨q, List.mem_filter.mpr ⟨hq, by simp [hq1, hne]⟩, hq1⟩

/-- C7. `delete_document(id)` removes the document row and every chunk row
under that id; on a reachable store, deleting a nonexistent (or already
deleted) id leaves the store exactly unchanged; and any search output over
the post-delete store contains no row of the deleted document. -/
theorem c7_delete_cascades_and_idempotent :
    (∀ (s : MemDB) (d : String),
      (∀ p ∈ (delete_document s d).chunks, p.2.document_id ≠ d) ∧
      (∀ p ∈ (delete_document s d).documents, p.1 ≠ d)) ∧
    (∀ (s : MemDB) (d : String), Reachable s →
      d ∉ s.documents.map Prod.fst → delete_document s d = s) ∧
    (∀ (s : MemDB) (d : String) (q : List ℚ) (k : ℕ) (out : List SearchRow),
      SearchOutcome (delete_document s d) q k out →
      ∀ r ∈ out, r.document_id ≠ d) := by
  have ha : ∀ (s : MemDB) (d : String),
      ∀ p ∈ (delete_document s d).chunks, p.2.document_id ≠ d := by
    intro s d p hp
    rw [delete_document_spec] at hp
    simp only [] at hp
    have hmem := List.mem_filter.mp hp
    simpa using hmem.2
  refine ⟨?_, ?_, ?_⟩
  · intro s d
    refine ⟨ha s d, ?_⟩
    intro p hp
    rw [delete_document_spec] at hp
    simp only [] at hp
    have hmem := List.mem_filter.mp hp
    simpa using hmem.2
  · intro s d hreach hnot
    have hinv := reachable_inv hreach
    have hnochunk : ∀ p ∈ s.chunks, p.2.document_id ≠ d := by
      intro p hp hcon
      exact hnot (hcon ▸ hinv.2 p hp)
    rw [delete_document_spec]
    have hremoved : s.chunks.filter (fun p => p.2.document_id == d) = [] := by
      rw [List.filter_eq_nil_iff]
      intro p hp
      simpa using hnochunk p hp
    cases s with
    | mk docs chks embs nid =>
      simp only [] at *
      congr 1
      · rw [List.filter_eq_self]
        intro p hp
        have hne : p.1 ≠ d := fun hcon => hnot (hcon ▸ List.mem_map.mpr ⟨p, hp, rfl⟩)
        simpa using hne
      · rw [List.filter_eq_self]
        intro p hp
        simpa using hnochunk p hp
      · rw [hremoved]
        rw [List.filter_eq_self]
        intro p _
        simp
  · intro s d q k out hout r hr
    rcases hout with ⟨sorted, hperm, _, htake⟩
    subst htake
    have hr2 : r ∈ sorted := List.mem_of_mem_take hr
    have hraw : r ∈ searchRowsRaw (delete_document s d) q := hperm.mem_iff.mp hr2
    unfold searchRowsRaw at hraw
    rcases List.mem_map.mp hraw with ⟨p, hp, hrfl⟩
    subst hrfl
    exact ha s d p hp

/-- Witness for C7: deleting a nonexistent id from the empty store. -/
theorem c7_delete_cascades_and_idempotent_witness :
    delete_document MemDB.empty "x" = MemDB.empty ∧
    (∀ r ∈ ([] : List SearchRow), r.document_id ≠ "x") :=
  ⟨c7_delete_cascades_and_idempotent.2.1 MemDB.empty "x" Reachable.empty
      (by simp [MemDB.empty]),
    c7_delete_cascades_and_idempotent.2.2 MemDB.empty "x" [] 5 []
      ⟨[], List.Perm.refl _, List.sorted_nil, rfl⟩⟩

/-! ## Claim C8 — zero search results short-circuit `ask` -/

/-- C8. If the search step returns zero rows (in particular on a store with
no chunks), `ask` answers with the canned no-relevant-documents response —
empty sources, `total_chunks = 0` — and the result does not depend on the
generation provider (`synth` is never invoked). -/
theorem c8_no_results_shortcircuit :
    (∀ (s : MemDB) (q : List ℚ) (k : ℕ) (out : List SearchRow),
      s.chunks = [] → SearchOutcome s q k out → out = []) ∧
    (∀ (question : String) (mt : ℕ) (synth : String → List Source → ℕ → String),
      queryAskFromRows [] synth question mt = cannedResponse) ∧
    (∀ (s : MemDB) (question : String) (q : List ℚ) (k mt : ℕ)
        (synth₁ synth₂ : String → List Source → ℕ → String)
        (r₁ r₂ : QueryResponse),
      s.chunks = [] → QueryAsk s question q k mt synth₁ r₁ →
      QueryAsk s question q k mt synth₂ r₂ → r₁ = cannedResponse ∧ r₂ = r₁) := by
  have h1 : ∀ (s : MemDB) (q : List ℚ) (k : ℕ) (out : List SearchRow),
      s.chunks = [] → SearchOutcome s q k out → out = [] := by
    rintro s q k out hc ⟨sorted, hperm, _, htake⟩
    have hraw : searchRowsRaw s q = [] := by
      unfold searchRowsRaw
      rw [hc]
      rfl
    rw [hraw] at hperm
    rw [List.perm_nil.mp hperm] at htake
    simpa using htake
  have h2 : ∀ (question : String) (mt : ℕ)
      (synth : String → List Source → ℕ → String),
      queryAskFromRows [] synth question mt = cannedResponse := by
    intro question mt synth
    rfl
  refine ⟨h1, h2, ?_⟩
  rintro s question q k mt synth₁ synth₂ r₁ r₂ hc ⟨hits₁, hout₁, hr₁⟩ ⟨hits₂, hout₂, hr₂⟩
  rw [h1 s q k hits₁ hc hout₁] at hr₁
  rw [h1 s q k hits₂ hc hout₂] at hr₂
  rw [hr₁, hr₂, h2, h2]
  exact ⟨rfl, rfl⟩

/-- Witness for C8 on the empty store, with two different generation
providers: both runs return the canned response. -/
theorem c8_no_results_shortcircuit_witness :
    cannedResponse = cannedResponse ∧ cannedResponse = cannedResponse :=
  (c8_no_results_shortcircuit.2.2 MemDB.empty "hi" [] 5 500
    (fun _ _ _ => "a") (fun _ _ _ => "b") cannedResponse cannedResponse
    rfl
    ⟨[], ⟨[], List.Perm.refl _, List.sorted_nil, rfl⟩, rfl⟩
    ⟨[], ⟨[], List.Perm.refl _, List.sorted_nil, rfl⟩, rfl⟩)

/-! ## Lemmas about the cosine distance -/

lemma cosine_distance_guard (v1 v2 : List ℚ)
    (h : v1 = [] ∨ v2 = [] ∨ v1.length ≠ v2.length) : cosine_distance v1 v2 = 1 := by
  unfold cosine_distance
  rw [if_pos h]

lemma cosine_distance_zero_mag (v1 v2 : List ℚ)
    (h : sumSq v1 = 0 ∨ sumSq v2 = 0) : cosine_distance v1 v2 = 1 := by
  unfold cosine_distance
  by_cases hg : v1 = [] ∨ v2 = [] ∨ v1.length ≠ v2.length
  · rw [if_pos hg]
  · rw [if_neg hg]
    dsimp only
    rw [if_pos ?_]
    rcases h with h | h
    · exact Or.inl (by rw [h]; simp)
    · exact Or.inr (by rw [h]; simp)

lemma lookup_eq_none_of_keys_ne {β : Type} (cid : ℕ) :
    ∀ l : List (ℕ × β), (∀ p ∈ l, p.1 ≠ cid) → l.lookup cid = none := by
  intro l
  induction l with
  | nil => intro _; rfl
  | cons p rest ih =>
    intro h
    obtain ⟨k, v⟩ := p
    have hk : k ≠ cid := h (k, v) (List.mem_cons_self _ _)
    have hbeq : (cid == k) = false := by simpa using Ne.symm hk
    show (match cid == k with
      | true => some v
      | false => rest.lookup cid) = none
    rw [hbeq]
    exact ih fun p hp => h p (List.mem_cons_of_mem _ hp)

lemma lookup_filter_out {β : Type} (cid : ℕ) (l : List (ℕ × β)) :
    (l.filter (fun p => !(p.1 == cid))).lookup cid = none := by
  apply lookup_eq_none_of_keys_ne
  intro p hp
  have := (List.mem_filter.mp hp).2
  simpa using this

lemma lookup_filter_ne {β : Type} (cid k : ℕ) (hne : k ≠ cid) (l : List (ℕ × β)) :
    (l.filter (fun p => !(p.1 == cid))).lookup k = l.lookup k := by
  induction l with
  | nil => rfl
  | cons p rest ih =>
    obtain ⟨k', v⟩ := p
    by_cases hk : k' = cid
    · subst hk
      rw [List.filter_cons_of_neg (by simp)]
      rw [ih]
      have hbeq : (k == k') = false := by simpa using hne
      show rest.lookup k = (match k == k' with
        | true => some v
        | false => rest.lookup k)
      rw [hbeq]
    · rw [List.filter_cons_of_pos (by simpa using hk)]
      show (match k == k' with
        | true => some v
        | false => (rest.filter (fun p => !(p.1 == cid))).lookup k) =
        (match k == k' with
        | true => some v
        | false => rest.lookup k)
      by_cases hkk : k = k'
      · subst hkk
        simp
      · have hbeq : (k == k') = false := by simpa using hkk
        rw [hbeq]
        exact ih

/-! ## Claim C10 — degenerate vectors score the maximal distance -/

/-- The same store with chunk `cid`'s embedding entry removed. -/
def removeEmb (s : MemDB) (cid : ℕ) : MemDB :=
  { s with embeddings := s.embeddings.filter (fun p => !(p.1 == cid)) }

/-- C10. `_cosine_distance` returns exactly 1.0 whenever the two vectors have
different lengths, or either is empty, or either has zero magnitude; and a
stored chunk whose (non-empty) embedding has a different dimensionality from
the query embedding is ranked exactly as if it had no embedding at all: the
search rows — hence every search outcome — are identical with the embedding
entry deleted. -/
theorem c10_degenerate_vectors_max_distance :
    (∀ v1 v2 : List ℚ, v1 = [] ∨ v2 = [] ∨ v1.length ≠ v2.length →
      cosine_distance v1 v2 = 1) ∧
    (∀ v1 v2 : List ℚ, sumSq v1 = 0 ∨ sumSq v2 = 0 → cosine_distance v1 v2 = 1) ∧
    (∀ (s : MemDB) (q : List ℚ) (cid : ℕ) (e : List ℚ),
      s.embeddings.lookup cid = some e → e ≠ [] → e.length ≠ q.length →
      searchRowsRaw s q = searchRowsRaw (removeEmb s cid) q ∧
      ∀ (k : ℕ) (out : List SearchRow),
        (SearchOutcome s q k out ↔ SearchOutcome (removeEmb s cid) q k out)) := by
  refine ⟨cosine_distance_guard, cosine_distance_zero_mag, ?_⟩
  intro s q cid e hlook hne hdim
  have hraw : searchRowsRaw s q = searchRowsRaw (removeEmb s cid) q := by
    unfold searchRowsRaw
    show s.chunks.map (rowFor s q) = s.chunks.map (rowFor (removeEmb s cid) q)
    apply List.map_congr_left
    intro p _
    unfold rowFor
    by_cases hp : p.1 = cid
    · subst hp
      rw [hlook]
      rw [show (removeEmb s p.1).embeddings.lookup p.1 = none from
        lookup_filter_out p.1 s.embeddings]
      dsimp only [Option.getD]
      by_cases hq : q = []
      · rw [if_neg (by simp [hq]), if_neg (by simp [hq])]
      · rw [if_pos ⟨hne, hq⟩, if_neg (by simp)]
        rw [cosine_distance_guard q e (Or.inr (Or.inr (Ne.symm hdim)))]
    · rw [show (removeEmb s cid).embeddings.lookup p.1 = s.embeddings.lookup p.1 from
        lookup_filter_ne cid p.1 hp s.embeddings]
  refine ⟨hraw, ?_⟩
  intro k out
  unfold SearchOutcome
  rw [hraw]

/-- Witness for C10: one stored chunk with 2-dimensional embedding, queried
with a 1-dimensional embedding. -/
def exMismatch : MemDB :=
  match store_in_db MemDB.empty "d" "f" none [['a']] [[(1 : ℚ), 2]] with
  | .ok s' => s'
  | .error _ => MemDB.empty

theorem c10_degenerate_vectors_max_distance_witness :
    searchRowsRaw exMismatch [(1 : ℚ)] =
      searchRowsRaw (removeEmb exMismatch 0) [(1 : ℚ)] :=
  ((c10_degenerate_vectors_max_distance.2.2) exMismatch [(1 : ℚ)] 0 [(1 : ℚ), 2]
    rfl (by decide) (by decide)).1

/-! ## Claim C3 — chunks without embeddings score 1.0 and sort last -/

/-- C3. The claim asserts (a) chunks lacking an embedding (or with an empty
embedding, or under an empty query embedding) get distance exactly 1.0, and
(b) such a chunk sorts after EVERY embedded chunk. Part (b) is false on the
code (see the counterexample): an embedded chunk with negative cosine
similarity scores above 1.0 and sorts after the embedding-less chunk.
Amended claim: part (a) unchanged; part (b) weakened to: in every search
output, the rows with distance < 1.0 (in particular every embedded chunk
with positive similarity) precede every row with distance ≥ 1.0 (in
particular every embedding-less chunk). -/
theorem c3_missing_embeddings_sort_last :
    (∀ (s : MemDB) (q : List ℚ) (p : ℕ × ChunkRow),
      ((s.embeddings.lookup p.1).getD [] = [] ∨ q = []) →
      (rowFor s q p).distance = 1) ∧
    (∀ (s : MemDB) (q : List ℚ) (k : ℕ) (out : List SearchRow),
      SearchOutcome s q k out →
      ∀ (i j : ℕ) (hi : i < out.length) (hj : j < out.length), i ≤ j →
        (out.get ⟨j, hj⟩).distance < 1 → (out.get ⟨i, hi⟩).distance < 1) := by
  constructor
  · intro s q p h
    unfold rowFor
    dsimp only
    rcases h with h | h
    · rw [if_neg (by simp [h])]
    · rw [if_neg (by simp [h])]
  · rintro s q k out ⟨sorted, hperm, hsort, htake⟩ i j hi hj hij hdj
    subst htake
    have hi' : i < sorted.length :=
      lt_of_lt_of_le hi (by rw [List.length_take]; exact min_le_right _ _)
    have hj' : j < sorted.length :=
      lt_of_lt_of_le hj (by rw [List.length_take]; exact min_le_right _ _)
    have hget : ∀ (m : ℕ) (hm : m < (sorted.take k).length) (hm' : m < sorted.length),
        (sorted.take k).get ⟨m, hm⟩ = sorted.get ⟨m, hm'⟩ := by
      intro m hm hm'
      rw [List.get_eq_getElem, List.get_eq_getElem]
      have h1 := List.getElem?_take_of_lt (l := sorted) (n := k) (m := m)
        (lt_of_lt_of_le hm (by rw [List.length_take]; exact min_le_left _ _))
      rw [List.getElem?_eq_getElem hm, List.getElem?_eq_getElem hm'] at h1
      exact Option.some_injective _ h1
    rcases Nat.eq_or_lt_of_le hij with rfl | hlt
    · exact hdj
    · rw [hget j hj hj'] at hdj
      rw [hget i hi hi']
      have hrel := List.Sorted.rel_get_of_lt hsort
        (a := ⟨i, hi'⟩) (b := ⟨j, hj'⟩) (Fin.mk_lt_mk.mpr hlt)
      exact lt_of_le_of_lt hrel hdj

/-- Witness for C3: a chunk with no stored embedding scores exactly 1.0. -/
theorem c3_missing_embeddings_sort_last_witness :
    (rowFor MemDB.empty [] (0, ChunkRow.mk "d" 0 ['a'])).distance = 1 :=
  c3_missing_embeddings_sort_last.1 MemDB.empty []
    (0, ChunkRow.mk "d" 0 ['a']) (Or.inl rfl)

/-- Document "dA" with embedding `[1]`, then document "dB" with an empty
embedding; queried with `[-1]`. -/
def exC3 : MemDB :=
  match store_in_db MemDB.empty "dA" "fa" none [['a']] [[(1 : ℚ)]] with
  | .ok s1 =>
    match store_in_db s1 "dB" "fb" none [['b']] [[]] with
    | .ok s2 => s2
    | .error _ => s1
  | .error _ => MemDB.empty

noncomputable def exRowA : SearchRow := rowFor exC3 [(-1 : ℚ)] (0, ChunkRow.mk "dA" 0 ['a'])

noncomputable def exRowB : SearchRow := rowFor exC3 [(-1 : ℚ)] (1, ChunkRow.mk "dB" 0 ['b'])

lemma cos_neg_one : cosine_distance [(-1 : ℚ)] [(1 : ℚ)] = 2 := by
  have h1 : sumSq [(-1 : ℚ)] = 1 := by norm_num [sumSq]
  have h2 : sumSq [(1 : ℚ)] = 1 := by norm_num [sumSq]
  have hd : dotQ [(-1 : ℚ)] [(1 : ℚ)] = -1 := by norm_num [dotQ, List.zip]
  unfold cosine_distance
  rw [if_neg (by simp)]
  dsimp only
  rw [h1, h2, hd]
  push_cast
  rw [Real.sqrt_one]
  rw [if_neg (by norm_num)]
  norm_num

lemma exRowA_distance : exRowA.distance = 2 := by
  unfold exRowA rowFor
  dsimp only
  rw [show (exC3.embeddings.lookup 0).getD [] = [(1 : ℚ)] from rfl]
  rw [if_pos ⟨by simp, by simp⟩]
  exact cos_neg_one

lemma exRowB_distance : exRowB.distance = 1 := by
  unfold exRowB rowFor
  dsimp only
  rw [show (exC3.embeddings.lookup 1).getD [] = ([] : List ℚ) from rfl]
  rw [if_neg (by simp)]

/-- C3 counterexample: querying with `[-1]`, the embedded chunk of "dA"
scores distance 2.0 while the embedding-less chunk of "dB" scores 1.0, so
the returned ranking places the embedding-less chunk FIRST and the embedded
chunk below it — refuting "no embedded chunk is ever ranked below an
embedding-less chunk". -/
theorem c3_counterexample :
    SearchOutcome exC3 [(-1 : ℚ)] 5 [exRowB, exRowA] ∧
    (exC3.embeddings.lookup 0).getD [] = [(1 : ℚ)] ∧
    (exC3.embeddings.lookup 1).getD [] = ([] : List ℚ) ∧
    exRowA.document_id = "dA" ∧ exRowB.document_id = "dB" ∧
    exRowA.distance = 2 ∧ exRowB.distance = 1 := by
  refine ⟨?_, rfl, rfl, rfl, rfl, exRowA_distance, exRowB_distance⟩
  refine ⟨[exRowB, exRowA], ?_, ?_, rfl⟩
  · rw [show searchRowsRaw exC3 [(-1 : ℚ)] = [exRowA, exRowB] from rfl]
    exact List.Perm.swap exRowA exRowB []
  · rw [List.sorted_cons]
    refine ⟨?_, ?_⟩
    · intro b hb
      simp only [List.mem_singleton] at hb
      subst hb
      show distLE exRowB exRowA
      unfold distLE
      rw [exRowA_distance, exRowB_distance]
      norm_num
    · simp [List.Sorted]

/-! ## Claim C1 — backend equivalence at `list_documents` -/

/-- The memory `fetch` dispatcher recognises neither marker in the
documents-listing SQL, so it falls through to the empty result. -/
lemma fetch_listDocs (s : MemDB) (ps : List PVal) (rows : List FetchRow) :
    s.fetch listDocsSQL ps rows ↔ rows = [] := by
  unfold MemDB.fetch
  rw [if_neg (by decide), if_neg (by decide)]

/-- One document ("d1", one chunk) ingested into the fresh store. -/
def exC1 : MemDB :=
  match store_in_db MemDB.empty "d1" "a.txt" none [['h', 'i']] [[(1 : ℚ)]] with
  | .ok s' => s'
  | .error _ => MemDB.empty

/-- C1 (claim refuted — code bug). The claim asserts both backends are
observationally equivalent, in particular that `list_documents` returns one
entry per stored document under either backend. On the in-memory backend the
`fetch` dispatcher does not recognise the documents-listing query
(`SELECT * FROM documents ORDER BY created_at DESC` matches neither branch
marker) and returns `[]`: with one document stored, the `/list` route reports
an empty knowledge base, while the spec-modelled durable backend reports that
document. -/
theorem c1_list_documents_divergence :
    (∀ out : List DocEntry, ListDocsOutcome exC1 out ↔ out = []) ∧
    exC1.documents.map Prod.fst = ["d1"] ∧
    durableListDocuments exC1.documents = [DocEntry.mk "d1" "a.txt" none 1] := by
  refine ⟨?_, by decide, by decide⟩
  intro out
  constructor
  · rintro ⟨rows, hf, hout⟩
    rw [fetch_listDocs] at hf
    subst hf
    simpa using hout
  · rintro rfl
    exact ⟨[], (fetch_listDocs _ _ _).mpr rfl, rfl⟩

/-- Witness for C1: the memory route produces `[]` on the store holding one
document. -/
theorem c1_list_documents_divergence_witness :
    ListDocsOutcome exC1 [] ∧ exC1.documents.map Prod.fst = ["d1"] :=
  ⟨(c1_list_documents_divergence.1 []).mpr rfl, c1_list_documents_divergence.2.1⟩

/-! ## Claim C9 — the backend switch is one-way -/

/-- C9. Once `_using_memory_db` is set, it stays set: every later
`get_db_connection` / `get_db_pool` / `init_database` call leaves it set,
never attempts PostgreSQL again, and is served by the in-memory backend —
over any sequence of operations (any pattern of PostgreSQL availability),
the flag never reverts. -/
theorem c9_backend_switch_irreversible :
    (∀ op : DbOp, stepFlag true op = true) ∧
    (∀ op : DbOp, attemptsPg true op = false) ∧
    (∀ op : DbOp, servedBackend true op = Backend.memory) ∧
    (∀ ops : List DbOp, ops.foldl stepFlag true = true) := by
  refine ⟨?_, ?_, ?_, ?_⟩
  · intro op; cases op <;> rfl
  · intro op; rfl
  · intro op; cases op <;> rfl
  · intro ops
    induction ops with
    | nil => rfl
    | cons op rest ih =>
      show rest.foldl stepFlag (stepFlag true op) = true
      rw [show stepFlag true op = true from by cases op <;> rfl]
      exact ih

